import Mathlib

/-!
Shallow embedding of `src/pdf_parser.py` (class `PDFParser`): structural PDF
extraction of paragraphs, tables and footnotes with bounding boxes.

The external layout engine (pdfplumber) is modelled abstractly: a `Page`
carries the results of the engine calls the extractor makes
(`extract_text`, `extract_words`, `find_tables`, `extract_tables`), each as an
`Except String _` so that an exception raised inside an engine call can be
represented.  Everything downstream of those calls is translated directly
from the Python source.  Coordinates are modelled as `Int` (only order and
min/max matter to the code).  Python strings are modelled as `String`/`List
Char`; the ASCII-level character classes used by the code's regexes are
translated explicitly.
-/

/-- Python `\s` (ASCII range): the whitespace characters recognised by
`str.strip`, `str.split()` and the `\s` class in the source's regexes. -/
def isPyWS (c : Char) : Bool :=
  c = ' ' || c = '\t' || c = '\n' || c = '\r' || c = '\x0b' || c = '\x0c'

/-- Regex class `[A-Z]`. -/
def isUpperA (c : Char) : Bool := 'A' ≤ c && c ≤ 'Z'

/-- Regex class `[a-z]`. -/
def isLowerA (c : Char) : Bool := 'a' ≤ c && c ≤ 'z'

/-- Regex class `\d` (ASCII). -/
def isDigitA (c : Char) : Bool := '0' ≤ c && c ≤ '9'

/-- Python `str.strip()` on a character list. -/
def pyStripL (cs : List Char) : List Char :=
  ((cs.dropWhile isPyWS).reverse.dropWhile isPyWS).reverse

/-- Python `str.strip()` on a `String`. -/
def pyStripS (s : String) : String := String.mk (pyStripL s.toList)

/-- Worker for Python `str.split()` (no argument): `acc` is the current word,
reversed. -/
def pyWordsGo : List Char → List Char → List (List Char)
  | [], [] => []
  | a :: as, [] => [(a :: as).reverse]
  | [], c :: r => if isPyWS c then pyWordsGo [] r else pyWordsGo [c] r
  | a :: as, c :: r =>
    if isPyWS c then (a :: as).reverse :: pyWordsGo [] r
    else pyWordsGo (c :: a :: as) r

/-- Python `str.split()` with no argument: split on whitespace runs,
dropping empty pieces. -/
def pyWordsL (cs : List Char) : List (List Char) := pyWordsGo [] cs

/-- `sep.join(pieces)` on character lists. -/
def intercalateL (sep : List Char) : List (List Char) → List Char
  | [] => []
  | [x] => x
  | x :: y :: r => x ++ sep ++ intercalateL sep (y :: r)

/-- Worker for Python `str.split(sep)` with a non-empty separator; `acc` is
the current piece, reversed; fuel decreases every step. -/
def splitSepGo (sep : List Char) : Nat → List Char → List Char → List (List Char)
  | 0, acc, _ => [acc.reverse]
  | fu + 1, acc, cs =>
    if sep.isPrefixOf cs then acc.reverse :: splitSepGo sep fu [] (cs.drop sep.length)
    else
      match cs with
      | [] => [acc.reverse]
      | c :: r => splitSepGo sep fu (c :: acc) r

/-- Python `str.split(sep)` (non-overlapping, left to right). -/
def splitSep (sep : List Char) (cs : List Char) : List (List Char) :=
  splitSepGo sep (cs.length + 1) [] cs

/-! ## Data model -/

/-- A word token reported by `page.extract_words()`: text plus its
bounding box (`x0`, `top`, `x1`, `bottom`). -/
structure Word where
  text : String
  x0 : Int
  top : Int
  x1 : Int
  bottom : Int
deriving DecidableEq, Repr

/-- An axis-aligned rectangle `(x0, y0, x1, y1)` in page coordinates. -/
structure BoundingBox where
  x0 : Int
  y0 : Int
  x1 : Int
  y1 : Int
deriving DecidableEq, Repr

/-- The type-specific part of an element's `metadata` dictionary (the
`bounding_box` entry is modelled as the separate `Element.bbox` field, and
the constant `'format': 'text'` entry of tables is omitted). -/
inductive Metadata where
  | paragraph (length word_count : Nat)
  | table (rows columns table_index : Nat)
  | footnote (count : Nat)
deriving DecidableEq, Repr

/-- One extracted element, as built by the dictionaries in
`_extract_paragraphs`, `_extract_tables` and `_extract_footnotes`. -/
structure Element where
  document_name : String
  section_name : String
  element_type : String
  content : String
  metadata : Metadata
  page_number : Nat
  bbox : BoundingBox
deriving DecidableEq, Repr

/-- A raw table as returned by `page.extract_tables(...)`: rows of optional
cell strings (`None` cells are `none`). -/
structure RawTable where
  rows : List (List (Option String))
deriving DecidableEq, Repr

/-- A page, modelled as the results of the four layout-engine calls the
extractor performs on it.  `Except.error` represents the call raising an
exception; `text` is `Option String` because `page.extract_text()` may
return `None`. -/
structure Page where
  text : Except String (Option String)
  words : Except String (List Word)
  foundTables : Except String (List BoundingBox)
  extractedTables : Except String (List RawTable)

/-- A document: metadata dictionary entries plus the ordered pages. -/
structure Doc where
  author : Option String := none
  title : Option String := none
  creationDate : Option String := none
  modDate : Option String := none
  producer : Option String := none
  pages : List Page

/-- Result of `_extract_metadata`. -/
structure DocMeta where
  author : String
  title : String
  creation_date : String
  modification_date : String
  producer : String
  total_pages : Nat
deriving DecidableEq, Repr

/-- `PDFParser._extract_metadata`: missing fields default to the empty
string; `total_pages` is `len(pdf.pages)`. -/
def extractMetadata (d : Doc) : DocMeta :=
  { author := d.author.getD ""
    title := d.title.getD ""
    creation_date := d.creationDate.getD ""
    modification_date := d.modDate.getD ""
    producer := d.producer.getD ""
    total_pages := d.pages.length }

/-- `min`/`max` of the coordinates of a non-empty word list, as computed by
the `min(...)`/`max(...)` generator expressions in the source (the `[]` case
is never reached by the code, which guards on non-emptiness). -/
def bboxOfWords : List Word → BoundingBox
  | [] => ⟨0, 0, 0, 0⟩
  | w :: ws =>
    ⟨ws.foldl (fun a b => min a b.x0) w.x0,
     ws.foldl (fun a b => min a b.top) w.top,
     ws.foldl (fun a b => max a b.x1) w.x1,
     ws.foldl (fun a b => max a b.bottom) w.bottom⟩

/-! ## Title detection (`PDFParser._is_title`)

The three regexes, applied with `re.match` to the stripped text:
`^[A-Z][A-Z\s]+$`, `^\d+\.\s+[A-Z]`, `^[A-Z][a-z]+(\s[A-Z][a-z]+)*$`.
Each is translated as a deterministic matcher (the alternation-free
patterns involved have disjoint adjacent character classes, so greedy
matching never backtracks). -/

/-- `^[A-Z][A-Z\s]+$`: an uppercase letter followed by one or more
uppercase letters or whitespace characters, to the end. -/
def matchAllCaps : List Char → Bool
  | c :: d :: r => isUpperA c && ((d :: r).all fun x => isUpperA x || isPyWS x)
  | _ => false

/-- `^\d+\.\s+[A-Z]` (unanchored at the right, as `re.match` only anchors
the start). -/
def matchNumbered (cs : List Char) : Bool :=
  let ds := cs.takeWhile isDigitA
  !ds.isEmpty &&
    match cs.dropWhile isDigitA with
    | '.' :: r2 =>
      let w := r2.takeWhile isPyWS
      !w.isEmpty &&
        (match r2.dropWhile isPyWS with
         | c :: _ => isUpperA c
         | [] => false)
    | _ => false

/-- Match `[A-Z][a-z]+` at the head, returning the remainder. -/
def matchWordP : List Char → Option (List Char)
  | [] => none
  | c :: rest =>
    if isUpperA c then
      if (rest.takeWhile isLowerA).isEmpty then none
      else some (rest.dropWhile isLowerA)
    else none

/-- Match `(\s[A-Z][a-z]+)*$` with fuel (each iteration consumes at least
three characters, so fuel = input length always suffices). -/
def matchTitleTail : Nat → List Char → Bool
  | _, [] => true
  | 0, _ :: _ => false
  | n + 1, c :: rest =>
    isPyWS c &&
      match matchWordP rest with
      | some r => matchTitleTail n r
      | none => false

/-- `^[A-Z][a-z]+(\s[A-Z][a-z]+)*$`. -/
def matchTitle (cs : List Char) : Bool :=
  match matchWordP cs with
  | some r => matchTitleTail cs.length r
  | none => false

/-- `PDFParser._is_title`: strip, then try the three patterns. -/
def isTitle (s : String) : Bool :=
  let t := pyStripL s.toList
  matchAllCaps t || matchNumbered t || matchTitle t

/-! ## Footnote pattern matching (`PDFParser._extract_footnotes`)

The three patterns, run with `re.finditer(pattern, text, re.MULTILINE)`:
`\[\d+\].*?(?=\n|$)`, `\(\d+\].*?(?=\n|$)`, `^\d+\.\s.*?(?=\n|$)`.
Since `.` does not match `\n` and the lookahead asks for `\n` or the end,
the lazy `.*?` extends each match exactly to the next newline (or the end
of the text).  A match-at-position function returns the matched text and
the remainder; `finditerGo` reproduces `finditer`'s left-to-right
non-overlapping scan, tracking whether the current position is at a line
start (for the `^` anchor under `re.MULTILINE`). -/

/-- Try `\[\d+\].*?(?=\n|$)` at the head of the input. -/
def tryPat1 : List Char → Option (List Char × List Char)
  | '[' :: r1 =>
    let ds := r1.takeWhile isDigitA
    if ds.isEmpty then none
    else
      match r1.dropWhile isDigitA with
      | ']' :: r3 =>
        some ('[' :: ds ++ ']' :: r3.takeWhile (· ≠ '\n'), r3.dropWhile (· ≠ '\n'))
      | _ => none
  | _ => none

/-- Try `\(\d+\].*?(?=\n|$)` at the head of the input. -/
def tryPat2 : List Char → Option (List Char × List Char)
  | '(' :: r1 =>
    let ds := r1.takeWhile isDigitA
    if ds.isEmpty then none
    else
      match r1.dropWhile isDigitA with
      | ']' :: r3 =>
        some ('(' :: ds ++ ']' :: r3.takeWhile (· ≠ '\n'), r3.dropWhile (· ≠ '\n'))
      | _ => none
  | _ => none

/-- Try `^\d+\.\s.*?(?=\n|$)` at the head of the input; `atLS` says whether
the position is a line start (`^` under `re.MULTILINE`). -/
def tryPat3 (atLS : Bool) (cs : List Char) : Option (List Char × List Char) :=
  if atLS then
    let ds := cs.takeWhile isDigitA
    if ds.isEmpty then none
    else
      match cs.dropWhile isDigitA with
      | '.' :: w :: r3 =>
        if isPyWS w then
          some (ds ++ '.' :: w :: r3.takeWhile (· ≠ '\n'), r3.dropWhile (· ≠ '\n'))
        else none
      | _ => none
  else none

/-- `re.finditer`: scan left to right, emitting non-overlapping matches;
on failure advance one character.  All three patterns consume at least one
character per match, so fuel = input length + 1 suffices. -/
def finditerGo (try_ : Bool → List Char → Option (List Char × List Char)) :
    Nat → Bool → List Char → List (List Char)
  | 0, _, _ => []
  | _ + 1, _, [] => []
  | n + 1, atLS, c :: r =>
    match try_ atLS (c :: r) with
    | some (m, rest) =>
      m :: finditerGo try_ n (match m.getLast? with | some '\n' => true | _ => false) rest
    | none => finditerGo try_ n (c = '\n') r

/-- All matches of the three footnote patterns over the page text, pooled
in pattern order (the order of the `for pattern in footnote_patterns`
loop). -/
def footMatches (text : String) : List (List Char) :=
  let cs := text.toList
  let fu := cs.length + 1
  finditerGo (fun _ c => tryPat1 c) fu true cs ++
    finditerGo (fun _ c => tryPat2 c) fu true cs ++
    finditerGo tryPat3 fu true cs

/-- Python substring containment `n in h` on character lists (the empty
string is contained in everything). -/
def isInfixL (n : List Char) : List Char → Bool
  | [] => n.isEmpty
  | c :: t => n.isPrefixOf (c :: t) || isInfixL n t

/-- The word-matching filter used for footnotes and paragraphs: Python
`w['text'] in t` (substring containment). -/
def wordsIn (ws : List Word) (t : List Char) : List Word :=
  ws.filter fun w => isInfixL w.text.toList t

/-- The accumulation loop of `_extract_footnotes`: for each match (in
order) strip it, collect the page words contained in it, and keep the
match's text and words only when at least one word matched.  Returns
(`all_footnote_texts`, `all_footnote_words`). -/
def collectFoot (ws : List Word) : List (List Char) → (List (List Char) × List Word)
  | [] => ([], [])
  | m :: ms =>
    let ft := pyStripL m
    let fw := wordsIn ws ft
    let p := collectFoot ws ms
    if fw.isEmpty then p else (ft :: p.1, fw ++ p.2)

/-- `PDFParser._extract_footnotes`: `page.extract_words()` is called before
the pattern loop (an exception there propagates); if any words matched, a
single merged footnote element is produced. -/
def extractFootnotes (dn : String) (text : String) (n : Nat) (pg : Page) :
    Except String (List Element) :=
  match pg.words with
  | .error e => .error e
  | .ok ws =>
    let p := collectFoot ws (footMatches text)
    if p.2.isEmpty then .ok []
    else
      .ok [{ document_name := dn
             section_name := "Footnotes"
             element_type := "footnote"
             content := String.mk (intercalateL ['\n'] p.1)
             metadata := Metadata.footnote p.1.length
             page_number := n
             bbox := bboxOfWords p.2 }]

/-! ## Table extraction (`PDFParser._extract_tables`) -/

/-- Cell cleaning: `None` becomes `""`; otherwise
`' '.join(str(cell).strip().split())`. -/
def cleanCell : Option String → String
  | none => ""
  | some s => String.mk (intercalateL [' '] (pyWordsL (pyStripL s.toList)))

/-- One cleaned row. -/
def cleanRow (row : List (Option String)) : List String := row.map cleanCell

/-- `any(cell.strip() for cell in cleaned_row)`. -/
def rowNonEmpty (r : List String) : Bool :=
  r.any fun c => !(pyStripL c.toList).isEmpty

/-- The cleaned table: cleaned rows, all-empty rows dropped. -/
def cleanedTable (t : RawTable) : List (List String) :=
  (t.rows.map cleanRow).filter rowNonEmpty

/-- `' '.join(cell for cell in row if cell.strip())`. -/
def textRowOf (r : List String) : String :=
  String.mk (intercalateL [' ']
    (((r.filter fun c => !(pyStripL c.toList).isEmpty).map String.toList)))

/-- The non-blank text rows of a cleaned table. -/
def textRowsOf (ct : List (List String)) : List String :=
  (ct.map textRowOf).filter fun tr => !(pyStripL tr.toList).isEmpty

/-- The element built for detected table number `idx` (zero-based position
in the zip of `extract_tables` and `find_tables` results). -/
def mkTable (dn : String) (pageN : Nat) (idx : Nat) (t : RawTable)
    (bb : BoundingBox) : Element :=
  let ct := cleanedTable t
  { document_name := dn
    section_name := "Table " ++ toString (idx + 1)
    element_type := "table"
    content := String.mk (intercalateL ['\n'] ((textRowsOf ct).map String.toList))
    metadata := Metadata.table ct.length (ct.headD []).length idx
    page_number := pageN
    bbox := bb }

/-- The `for table_idx, (table, table_bbox) in enumerate(zip(...))` loop:
tables whose rows all clean to empty are skipped, but still advance the
index. -/
def tablesGo (dn : String) (pageN : Nat) : Nat → List (RawTable × BoundingBox) → List Element
  | _, [] => []
  | i, (t, bb) :: rest =>
    if (cleanedTable t).isEmpty then tablesGo dn pageN (i + 1) rest
    else mkTable dn pageN i t bb :: tablesGo dn pageN (i + 1) rest

/-- `PDFParser._extract_tables`: any exception from the engine calls is
caught (and logged), yielding `[]`; the body runs only when both
`extract_tables` and `find_tables` returned non-empty lists. -/
def extractTables (dn : String) (pageN : Nat) (pg : Page) : List Element :=
  match pg.foundTables, pg.extractedTables with
  | .ok fts, .ok ets =>
    if ets.isEmpty || fts.isEmpty then []
    else tablesGo dn pageN 0 (ets.zip fts)
  | _, _ => []

/-! ## Paragraph extraction (`PDFParser._extract_paragraphs`) -/

/-- `[p.strip() for p in text.split('\n\n') if p.strip()]`. -/
def rawParagraphs (text : String) : List String :=
  ((splitSep ['\n', '\n'] text.toList).map fun cs => String.mk (pyStripL cs)).filter
    fun s => !s.toList.isEmpty

/-- The element built for one emitted paragraph block. -/
def mkParagraph (dn : String) (sec : String) (b : String) (n : Nat)
    (pws : List Word) : Element :=
  { document_name := dn
    section_name := sec
    element_type := "paragraph"
    content := b
    metadata := Metadata.paragraph b.length (pyWordsL b.toList).length
    page_number := n
    bbox := bboxOfWords pws }

/-- The block loop of `_extract_paragraphs`: a title block updates the
running section and is skipped; otherwise `page.extract_words()` is
consulted (an exception propagates) and the block is emitted only when at
least one word matched. -/
def extractParasGo (dn : String) (n : Nat) (pg : Page) :
    String → List String → Except String (List Element)
  | _, [] => .ok []
  | sec, b :: bs =>
    if isTitle b then extractParasGo dn n pg b bs
    else
      match pg.words with
      | .error e => .error e
      | .ok ws =>
        match extractParasGo dn n pg sec bs with
        | .error e => .error e
        | .ok rest =>
          let pws := wordsIn ws b.toList
          if pws.isEmpty then .ok rest
          else .ok (mkParagraph dn sec b n pws :: rest)

/-- `PDFParser._extract_paragraphs`: the section state starts at
`"Introduction"` on every call (hence on every page). -/
def extractParagraphs (dn : String) (text : String) (n : Nat) (pg : Page) :
    Except String (List Element) :=
  extractParasGo dn n pg "Introduction" (rawParagraphs text)

/-! ## `PDFParser.parse` -/

/-- The page loop of `parse`: `page.page_number` is `n` (pdfplumber numbers
pages 1-based in document order); per page, paragraphs, then tables, then
footnotes are extracted and appended in that order.  An exception from
`extract_text`, paragraph extraction or footnote extraction propagates and
aborts the loop. -/
def parsePages (dn : String) : Nat → List Page → Except String (List Element)
  | _, [] => .ok []
  | n, pg :: rest =>
    match pg.text with
    | .error e => .error e
    | .ok t =>
      match extractParagraphs dn (t.getD "") n pg with
      | .error e => .error e
      | .ok paras =>
        match extractFootnotes dn (t.getD "") n pg with
        | .error e => .error e
        | .ok fns =>
          match parsePages dn (n + 1) rest with
          | .error e => .error e
          | .ok more => .ok (paras ++ extractTables dn n pg ++ fns ++ more)

/-- The parser object: `pdf_path`, `document_name = pdf_path.split('/')[-1]`
and the accumulating `self.elements` list. -/
structure PDFParser where
  pdf_path : String
  document_name : String
  elements : List Element
deriving DecidableEq, Repr

/-- `PDFParser.__init__`. -/
def mkParser (path : String) : PDFParser :=
  { pdf_path := path
    document_name := ((path.toList.splitOnP (· = '/')).getLastD []).asString
    elements := [] }

/-- `PDFParser.parse`: extends `self.elements` with the run's elements and
returns the whole accumulated list (document metadata is extracted but
unused). -/
def PDFParser.parse (p : PDFParser) (doc : Doc) :
    Except String (PDFParser × List Element) :=
  match parsePages p.document_name 1 doc.pages with
  | .error e => .error e
  | .ok es =>
    let all := p.elements ++ es
    .ok ({ p with elements := all }, all)

/-! ## Specification-side definitions

These follow the wording of the specification (not the source), for the
refinement statements below. -/

/-- Spec wording for the section state of paragraph extraction: walk the
blocks with the running "current section"; a heading block updates it, any
other block is paired with the most recently seen heading. -/
def sectionPairs (sec : String) : List String → List (String × String)
  | [] => []
  | b :: bs => if isTitle b then sectionPairs b bs else (sec, b) :: sectionPairs sec bs

/-- Spec wording for paragraph emission: a (section, block) candidate is
emitted iff some page word is contained in the block; its box is the
min/max over the matched words. -/
def emitOf (dn : String) (n : Nat) (ws : List Word) (sb : String × String) :
    Option Element :=
  let pws := wordsIn ws sb.2.toList
  if pws.isEmpty then none else some (mkParagraph dn sb.1 sb.2 n pws)

/-- Spec wording for one page's output: paragraphs, then tables, then
footnotes. -/
def pageElements (dn : String) (k : Nat) (pg : Page) : Except String (List Element) :=
  match pg.text with
  | .error e => .error e
  | .ok t =>
    match extractParagraphs dn (t.getD "") k pg with
    | .error e => .error e
    | .ok paras =>
      match extractFootnotes dn (t.getD "") k pg with
      | .error e => .error e
      | .ok fns => .ok (paras ++ extractTables dn k pg ++ fns)

/-- Spec wording for the whole output: the pages' element lists, joined in
page order. -/
def specJoin (dn : String) : List (Nat × Page) → Except String (List Element)
  | [] => .ok []
  | (k, pg) :: rest =>
    match pageElements dn k pg with
    | .error e => .error e
    | .ok seg =>
      match specJoin dn rest with
      | .error e => .error e
      | .ok more => .ok (seg ++ more)

/-- Rank of an element type in the claimed within-page order:
paragraphs, then tables, then footnotes. -/
def typeRank (e : Element) : Nat :=
  if e.element_type = "paragraph" then 0 else if e.element_type = "table" then 1 else 2

/-- The claimed output order: by page, and by paragraph/table/footnote
within a page. -/
def elemLE (a b : Element) : Prop :=
  a.page_number < b.page_number ∨
    (a.page_number = b.page_number ∧ typeRank a ≤ typeRank b)

/-- C6's wording for its first alternative, taken literally: the
(stripped) text is non-empty and made entirely of uppercase letters and
whitespace. -/
def claimUpperWS (cs : List Char) : Prop :=
  cs ≠ [] ∧ ∀ c ∈ cs, isUpperA c = true ∨ isPyWS c = true

/-- Amended first alternative: an uppercase letter followed by at least
one more uppercase letter or whitespace character (so two or more
characters in all). -/
def specAllCaps (cs : List Char) : Prop :=
  ∃ c d r, cs = c :: d :: r ∧ isUpperA c = true ∧
    ∀ x ∈ d :: r, isUpperA x = true ∨ isPyWS x = true

/-- Numbered-heading alternative: one or more digits, a period, one or
more whitespace characters, then an uppercase letter (anything may
follow). -/
def specNumbered (cs : List Char) : Prop :=
  ∃ ds w c tail, cs = ds ++ '.' :: (w ++ c :: tail) ∧
    ds ≠ [] ∧ (∀ x ∈ ds, isDigitA x = true) ∧
    w ≠ [] ∧ (∀ x ∈ w, isPyWS x = true) ∧ isUpperA c = true

/-- A title-case word: an uppercase letter followed by one or more
lowercase letters. -/
def capWordB : List Char → Bool
  | c :: l :: ls => isUpperA c && (l :: ls).all isLowerA
  | _ => false

/-- Tail of a title-case text: zero or more repetitions of a single
whitespace character followed by a title-case word. -/
inductive TitleTail : List Char → Prop
  | nil : TitleTail []
  | cons (s : Char) (w rest : List Char) : isPyWS s = true → capWordB w = true →
      TitleTail rest → TitleTail (s :: (w ++ rest))

/-- Amended title-case alternative: a title-case word, then zero or more
(single whitespace character, title-case word) groups, covering the whole
text. -/
def TitleStr (cs : List Char) : Prop :=
  ∃ w rest, cs = w ++ rest ∧ capWordB w = true ∧ TitleTail rest

/-! ## Concrete fixtures -/

/-- A well-behaved one-paragraph page. -/
def pageA : Page :=
  { text := .ok (some "Hello world")
    words := .ok [⟨"Hello", 0, 0, 10, 2⟩, ⟨"world", 12, 0, 20, 2⟩]
    foundTables := .ok []
    extractedTables := .ok [] }

/-- One-page document over `pageA`. -/
def docA : Doc := { pages := [pageA] }

/-- The element `parse` extracts from `docA`. -/
def elemA : Element :=
  { document_name := "a.pdf"
    section_name := "Introduction"
    element_type := "paragraph"
    content := "Hello world"
    metadata := Metadata.paragraph 11 2
    page_number := 1
    bbox := ⟨0, 0, 20, 2⟩ }

/-- A page whose `extract_words` call raises. -/
def pageErr : Page :=
  { text := .ok (some "Hello world")
    words := .error "boom"
    foundTables := .ok []
    extractedTables := .ok [] }

/-- Two-page document: the failing page, then a good one. -/
def docB : Doc := { pages := [pageErr, pageA] }

/-- A page with one detected table (content cell `"foo"`, detector box
`(5,5,9,9)`) and no word tokens at all. -/
def pageT : Page :=
  { text := .ok (some "")
    words := .ok []
    foundTables := .ok [⟨5, 5, 9, 9⟩]
    extractedTables := .ok [⟨[[some "foo"]]⟩] }

/-- One-page document over `pageT`. -/
def docT : Doc := { pages := [pageT] }

/-- A page carrying two footnote lines matched by two different patterns. -/
def pageF : Page :=
  { text := .ok (some "[1] See appendix A\n(2] See appendix B")
    words := .ok [⟨"[1]", 0, 0, 10, 10⟩, ⟨"See", 12, 0, 20, 10⟩,
                  ⟨"(2]", 0, 12, 10, 22⟩, ⟨"B", 40, 12, 44, 22⟩]
    foundTables := .ok []
    extractedTables := .ok [] }

/-- One-page document over `pageF`. -/
def docF : Doc := { pages := [pageF] }

/-- A page where the first detected table cleans to nothing and the second
survives: the emitted labels skip "Table 1". -/
def pageC : Page :=
  { text := .ok (some "")
    words := .ok []
    foundTables := .ok [⟨0, 0, 1, 1⟩, ⟨2, 2, 3, 3⟩]
    extractedTables := .ok [⟨[[some " "], [none]]⟩, ⟨[[some "a", some "b"]]⟩] }

/-! ## Helper lemmas: character classes and takeWhile/dropWhile -/

theorem pyWS_cases {c : Char} (h : isPyWS c = true) :
    c = ' ' ∨ c = '\t' ∨ c = '\n' ∨ c = '\r' ∨ c = '\x0b' ∨ c = '\x0c' := by
  simpa [isPyWS, or_assoc] using h

theorem pyWS_not_lower {c : Char} (h : isPyWS c = true) : isLowerA c = false := by
  rcases pyWS_cases h with h | h | h | h | h | h <;> subst h <;> decide

theorem upper_not_pyWS {c : Char} (h : isUpperA c = true) : isPyWS c = false := by
  by_contra hc
  rw [Bool.not_eq_false] at hc
  rcases pyWS_cases hc with h' | h' | h' | h' | h' | h' <;> subst h' <;> simp [isUpperA] at h

theorem tw_append_all {α : Type} {p : α → Bool} {l1 : List α} (l2 : List α)
    (h : ∀ x ∈ l1, p x = true) :
    (l1 ++ l2).takeWhile p = l1 ++ l2.takeWhile p := by
  induction l1 with
  | nil => rfl
  | cons a t ih =>
    have ha : p a = true := h a (List.mem_cons_self a t)
    simp only [List.cons_append, List.takeWhile_cons, ha, if_true]
    rw [ih fun x hx => h x (List.mem_cons_of_mem a hx)]

theorem dw_append_all {α : Type} {p : α → Bool} {l1 : List α} (l2 : List α)
    (h : ∀ x ∈ l1, p x = true) :
    (l1 ++ l2).dropWhile p = l2.dropWhile p := by
  induction l1 with
  | nil => rfl
  | cons a t ih =>
    have ha : p a = true := h a (List.mem_cons_self a t)
    simp only [List.cons_append, List.dropWhile_cons, ha, if_true]
    exact ih fun x hx => h x (List.mem_cons_of_mem a hx)

theorem tw_head_false {α : Type} {p : α → Bool} {c : α} (t : List α)
    (h : p c = false) : (c :: t).takeWhile p = [] := by
  simp [List.takeWhile_cons, h]

theorem dw_head_false {α : Type} {p : α → Bool} {c : α} (t : List α)
    (h : p c = false) : (c :: t).dropWhile p = c :: t := by
  simp [List.dropWhile_cons, h]

theorem dw_head_not {α : Type} {p : α → Bool} (l : List α) :
    ∀ {c t}, l.dropWhile p = c :: t → p c = false := by
  induction l with
  | nil => intro c t h; simp at h
  | cons a r ih =>
    intro c t h
    by_cases ha : p a = true
    · rw [List.dropWhile_cons, if_pos ha] at h
      exact ih h
    · rw [List.dropWhile_cons, if_neg ha] at h
      cases h
      exact Bool.eq_false_iff.mpr ha

theorem mem_tw {α : Type} {p : α → Bool} (l : List α) :
    ∀ {x}, x ∈ l.takeWhile p → p x = true := by
  induction l with
  | nil => intro x h; simp at h
  | cons a r ih =>
    intro x h
    by_cases ha : p a = true
    · rw [List.takeWhile_cons, if_pos ha] at h
      rcases List.mem_cons.mp h with rfl | h'
      · exact ha
      · exact ih h'
    · rw [List.takeWhile_cons, if_neg ha] at h
      simp at h

/-! ## Equivalence of the `_is_title` matchers with their spec readings -/

theorem matchAllCaps_iff (cs : List Char) : matchAllCaps cs = true ↔ specAllCaps cs := by
  constructor
  · intro h
    match cs, h with
    | c :: d :: r, h =>
      rw [matchAllCaps, Bool.and_eq_true, List.all_eq_true] at h
      exact ⟨c, d, r, rfl, h.1, fun x hx => Bool.or_eq_true _ _ |>.mp (h.2 x hx)⟩
  · rintro ⟨c, d, r, rfl, h1, h2⟩
    rw [matchAllCaps, Bool.and_eq_true, List.all_eq_true]
    exact ⟨h1, fun x hx => Bool.or_eq_true _ _ |>.mpr (h2 x hx)⟩

theorem matchNumbered_iff (cs : List Char) : matchNumbered cs = true ↔ specNumbered cs := by
  constructor
  · intro h
    rw [matchNumbered, Bool.and_eq_true] at h
    obtain ⟨hds, hrest⟩ := h
    rcases hr1 : cs.dropWhile isDigitA with _ | ⟨c1, r2⟩
    · rw [hr1] at hrest; simp at hrest
    rw [hr1] at hrest
    have hdot : c1 = '.' := by
      by_contra hne
      revert hrest
      cases c1
      simp_all [matchNumbered]
    subst hdot
    simp only [Bool.and_eq_true] at hrest
    obtain ⟨hw, hr3⟩ := hrest
    rcases hr3' : r2.dropWhile isPyWS with _ | ⟨c, tail⟩
    · rw [hr3'] at hr3; simp at hr3
    rw [hr3'] at hr3
    refine ⟨cs.takeWhile isDigitA, r2.takeWhile isPyWS, c, tail, ?_, ?_, ?_, ?_, ?_, hr3⟩
    · conv_lhs => rw [← List.takeWhile_append_dropWhile (p := isDigitA) (l := cs)]
      rw [hr1, ← hr3', List.takeWhile_append_dropWhile]
    · intro he; rw [he] at hds; simp at hds
    · exact fun x hx => mem_tw _ hx
    · intro he; rw [he] at hw; simp at hw
    · exact fun x hx => mem_tw _ hx
  · rintro ⟨ds, w, c, tail, rfl, hds, hdig, hw, hws, hc⟩
    have h1 : (ds ++ '.' :: (w ++ c :: tail)).takeWhile isDigitA = ds := by
      rw [tw_append_all _ hdig, tw_head_false _ (by decide), List.append_nil]
    have h2 : (ds ++ '.' :: (w ++ c :: tail)).dropWhile isDigitA = '.' :: (w ++ c :: tail) := by
      rw [dw_append_all _ hdig, dw_head_false _ (by decide)]
    have h3 : (w ++ c :: tail).takeWhile isPyWS = w := by
      rw [tw_append_all _ hws, tw_head_false _ (upper_not_pyWS hc), List.append_nil]
    have h4 : (w ++ c :: tail).dropWhile isPyWS = c :: tail := by
      rw [dw_append_all _ hws, dw_head_false _ (upper_not_pyWS hc)]
    rw [matchNumbered]
    simp only [h1, h2, h3, h4]
    simp only [Bool.and_eq_true, Bool.not_eq_true']
    refine ⟨by simpa using hds, by simpa using hw, hc⟩

/-- The remainder after a title-case word never starts with a lowercase
letter. -/
def headNotLower : List Char → Prop
  | [] => True
  | h :: _ => isLowerA h = false

theorem mw_sound {cs r : List Char} (h : matchWordP cs = some r) :
    ∃ w, capWordB w = true ∧ cs = w ++ r ∧ headNotLower r := by
  match cs with
  | [] => simp [matchWordP] at h
  | c :: rest =>
    rw [matchWordP] at h
    by_cases hc : isUpperA c = true
    · rw [if_pos hc] at h
      by_cases he : (rest.takeWhile isLowerA).isEmpty = true
      · rw [if_pos he] at h; simp at h
      · rw [if_neg he] at h
        injection h with h
        subst h
        refine ⟨c :: rest.takeWhile isLowerA, ?_, ?_, ?_⟩
        · rcases htw : rest.takeWhile isLowerA with _ | ⟨l, ls⟩
          · rw [htw] at he; simp at he
          · rw [capWordB, Bool.and_eq_true, List.all_eq_true]
            exact ⟨hc, fun x hx => mem_tw rest (htw ▸ hx)⟩
        · rw [List.cons_append, List.takeWhile_append_dropWhile]
        · rcases hdw : rest.dropWhile isLowerA with _ | ⟨d, t⟩
          · exact trivial
          · exact dw_head_not rest hdw
    · rw [if_neg hc] at h; simp at h

theorem mw_complete {w r : List Char} (hw : capWordB w = true) (hr : headNotLower r) :
    matchWordP (w ++ r) = some r := by
  match w, hw with
  | c :: l :: ls, hw =>
    rw [capWordB, Bool.and_eq_true, List.all_eq_true] at hw
    obtain ⟨hc, hls⟩ := hw
    have htwr : r.takeWhile isLowerA = [] := by
      rcases r with _ | ⟨h, t⟩
      · rfl
      · exact tw_head_false t hr
    have hdwr : r.dropWhile isLowerA = r := by
      rcases r with _ | ⟨h, t⟩
      · rfl
      · exact dw_head_false t hr
    have h1 : ((l :: ls) ++ r).takeWhile isLowerA = l :: ls := by
      rw [tw_append_all _ hls, htwr, List.append_nil]
    have h2 : ((l :: ls) ++ r).dropWhile isLowerA = r := by
      rw [dw_append_all _ hls, hdwr]
    rw [List.cons_append, matchWordP, if_pos hc, List.cons_append] at *
    rw [h1, h2]
    simp

theorem titleTail_headNotLower {r : List Char} (h : TitleTail r) : headNotLower r := by
  cases h with
  | nil => exact trivial
  | cons s w rest hs hw ht => exact pyWS_not_lower hs

theorem tail_sound : ∀ n r, matchTitleTail n r = true → TitleTail r := by
  intro n
  induction n with
  | zero =>
    intro r h
    rcases r with _ | ⟨c, t⟩
    · exact TitleTail.nil
    · simp [matchTitleTail] at h
  | succ m ih =>
    intro r h
    rcases r with _ | ⟨c, rest⟩
    · exact TitleTail.nil
    · rw [matchTitleTail, Bool.and_eq_true] at h
      obtain ⟨hc, hm⟩ := h
      rcases hmw : matchWordP rest with _ | r2
      · rw [hmw] at hm; simp at hm
      · rw [hmw] at hm
        obtain ⟨w, hw, hrest, _⟩ := mw_sound hmw
        subst hrest
        exact TitleTail.cons c w r2 hc hw (ih r2 hm)

theorem tail_complete {r : List Char} (h : TitleTail r) :
    ∀ n, r.length ≤ n → matchTitleTail n r = true := by
  induction h with
  | nil => intro n _; cases n <;> rfl
  | cons s w rest hs hw ht ih =>
    intro n hn
    rcases n with _ | m
    · simp at hn
    · rw [matchTitleTail, Bool.and_eq_true]
      refine ⟨hs, ?_⟩
      rw [mw_complete hw (titleTail_headNotLower ht)]
      refine ih m ?_
      have : (s :: (w ++ rest)).length = 1 + w.length + rest.length := by
        simp [List.length_cons, List.length_append]; omega
      omega

theorem matchTitle_iff (cs : List Char) : matchTitle cs = true ↔ TitleStr cs := by
  constructor
  · intro h
    rw [matchTitle] at h
    rcases hmw : matchWordP cs with _ | r
    · rw [hmw] at h; simp at h
    · rw [hmw] at h
      obtain ⟨w, hw, hcs, _⟩ := mw_sound hmw
      exact ⟨w, r, hcs, hw, tail_sound _ _ h⟩
  · rintro ⟨w, rest, rfl, hw, ht⟩
    rw [matchTitle, mw_complete hw (titleTail_headNotLower ht)]
    exact tail_complete ht _ (by simp [List.length_append])

/-! ## `str.split()` is invariant under `str.strip()` -/

theorem pyWordsGo_all_ws {t : List Char} (h : ∀ c ∈ t, isPyWS c = true) :
    ∀ acc, pyWordsGo acc t = pyWordsGo acc [] := by
  induction t with
  | nil => intro acc; rfl
  | cons c r ih =>
    intro acc
    have hc : isPyWS c = true := h c (List.mem_cons_self c r)
    have ih' := ih fun x hx => h x (List.mem_cons_of_mem c hx)
    rcases acc with _ | ⟨a, as⟩
    · simp only [pyWordsGo, if_pos hc]
      exact (ih' []).trans rfl
    · simp only [pyWordsGo, if_pos hc]
      rw [ih' []]
      rfl

theorem pyWordsGo_append_ws {t : List Char} (h : ∀ c ∈ t, isPyWS c = true) :
    ∀ (x : List Char) acc, pyWordsGo acc (x ++ t) = pyWordsGo acc x := by
  intro x
  induction x with
  | nil => intro acc; exact pyWordsGo_all_ws h acc
  | cons c r ih =>
    intro acc
    by_cases hc : isPyWS c = true
    · rcases acc with _ | ⟨a, as⟩
      · rw [List.cons_append, pyWordsGo, if_pos hc, pyWordsGo, if_pos hc]
        exact ih []
      · rw [List.cons_append, pyWordsGo, if_pos hc, pyWordsGo, if_pos hc]
        rw [ih []]
    · rcases acc with _ | ⟨a, as⟩
      · rw [List.cons_append, pyWordsGo, if_neg hc, pyWordsGo, if_neg hc]
        exact ih _
      · rw [List.cons_append, pyWordsGo, if_neg hc, pyWordsGo, if_neg hc]
        exact ih _

theorem pyWordsGo_dropWhile : ∀ cs : List Char,
    pyWordsGo [] (cs.dropWhile isPyWS) = pyWordsGo [] cs := by
  intro cs
  induction cs with
  | nil => rfl
  | cons c r ih =>
    by_cases hc : isPyWS c = true
    · rw [List.dropWhile_cons, if_pos hc, ih, pyWordsGo, if_pos hc]
    · rw [List.dropWhile_cons, if_neg hc]

theorem pyWords_strip (cs : List Char) : pyWordsL (pyStripL cs) = pyWordsL cs := by
  have key : ∀ y : List Char,
      pyWordsGo [] ((y.reverse.dropWhile isPyWS).reverse) = pyWordsGo [] y := by
    intro y
    have hy : y = (y.reverse.dropWhile isPyWS).reverse ++ (y.reverse.takeWhile isPyWS).reverse := by
      conv_lhs => rw [← List.reverse_reverse y,
        ← List.takeWhile_append_dropWhile (p := isPyWS) (l := y.reverse)]
      rw [List.reverse_append]
    have hws : ∀ c ∈ (y.reverse.takeWhile isPyWS).reverse, isPyWS c = true := by
      intro c hc
      exact mem_tw y.reverse (List.mem_reverse.mp hc)
    calc pyWordsGo [] ((y.reverse.dropWhile isPyWS).reverse)
        = pyWordsGo [] ((y.reverse.dropWhile isPyWS).reverse ++
            (y.reverse.takeWhile isPyWS).reverse) := (pyWordsGo_append_ws hws _ []).symm
      _ = pyWordsGo [] y := by rw [← hy]
  rw [pyWordsL, pyStripL, key, pyWordsL, pyWordsGo_dropWhile]

/-! ## Structural lemmas about the extraction routines -/

theorem parasGo_eq {dn : String} {n : Nat} {pg : Page} {ws : List Word}
    (hw : pg.words = .ok ws) :
    ∀ (bs : List String) (sec : String),
      extractParasGo dn n pg sec bs =
        .ok ((sectionPairs sec bs).filterMap (emitOf dn n ws)) := by
  intro bs
  induction bs with
  | nil => intro sec; rfl
  | cons b bs ih =>
    intro sec
    by_cases ht : isTitle b = true
    · rw [extractParasGo, if_pos ht, sectionPairs, if_pos ht]
      exact ih b
    · rw [extractParasGo, if_neg ht, hw, ih sec, sectionPairs, if_neg ht,
        List.filterMap_cons]
      by_cases hemp : wordsIn ws b.data = [] <;> simp [emitOf, hemp]

theorem sectionPairs_not_title :
    ∀ (bs : List String) (sec : String) (p : String × String),
      p ∈ sectionPairs sec bs → isTitle p.2 = false := by
  intro bs
  induction bs with
  | nil => intro sec p h; simp [sectionPairs] at h
  | cons b bs ih =>
    intro sec p h
    by_cases ht : isTitle b = true
    · rw [sectionPairs, if_pos ht] at h
      exact ih b p h
    · rw [sectionPairs, if_neg ht] at h
      rcases List.mem_cons.mp h with rfl | h'
      · exact Bool.eq_false_iff.mpr ht
      · exact ih sec p h'

theorem parasGo_err {dn : String} {n : Nat} {pg : Page} {err : String}
    (hw : pg.words = .error err) :
    ∀ (bs : List String) (sec : String) (es : List Element),
      extractParasGo dn n pg sec bs = .ok es → es = [] := by
  intro bs
  induction bs with
  | nil =>
    intro sec es h
    rw [extractParasGo] at h
    injection h with h
    exact h.symm
  | cons b bs ih =>
    intro sec es h
    by_cases ht : isTitle b = true
    · rw [extractParasGo, if_pos ht] at h
      exact ih b es h
    · rw [extractParasGo, if_neg ht, hw] at h
      exact absurd h (by simp)

theorem parasGo_facts {dn : String} {n : Nat} {pg : Page}
    {bs : List String} {sec : String} {es : List Element}
    (h : extractParasGo dn n pg sec bs = .ok es) :
    ∀ e ∈ es, e.page_number = n ∧ e.element_type = "paragraph" ∧
      e.document_name = dn := by
  intro e he
  rcases hwv : pg.words with we | ws
  · rw [parasGo_err hwv bs sec es h] at he
    simp at he
  · rw [parasGo_eq hwv bs sec] at h
    injection h with h
    subst h
    obtain ⟨p, hp, hemit⟩ := List.mem_filterMap.mp he
    by_cases hpw : wordsIn ws p.2.data = []
    · simp [emitOf, hpw] at hemit
    · simp [emitOf, hpw] at hemit
      rw [← hemit]
      exact ⟨rfl, rfl, rfl⟩

theorem tablesGo_mem {dn : String} {pageN : Nat} :
    ∀ (l : List (RawTable × BoundingBox)) (i : Nat) (e : Element),
      e ∈ tablesGo dn pageN i l →
      ∃ j t bb, l.get? j = some (t, bb) ∧ (cleanedTable t).isEmpty = false ∧
        e = mkTable dn pageN (i + j) t bb := by
  intro l
  induction l with
  | nil => intro i e h; simp [tablesGo] at h
  | cons p rest ih =>
    intro i e h
    obtain ⟨t, bb⟩ := p
    by_cases hct : (cleanedTable t).isEmpty = true
    · rw [tablesGo, if_pos hct] at h
      obtain ⟨j, t', bb', hj, hne, he⟩ := ih (i + 1) e h
      exact ⟨j + 1, t', bb', by simpa using hj, hne, by rw [he]; congr 1; omega⟩
    · rw [tablesGo, if_neg hct] at h
      rcases List.mem_cons.mp h with rfl | h'
      · exact ⟨0, t, bb, rfl, Bool.eq_false_iff.mpr hct, by rw [Nat.add_zero]⟩
      · obtain ⟨j, t', bb', hj, hne, he⟩ := ih (i + 1) e h'
        exact ⟨j + 1, t', bb', by simpa using hj, hne, by rw [he]; congr 1; omega⟩

theorem extractTables_facts {dn : String} {pageN : Nat} {pg : Page} :
    ∀ e ∈ extractTables dn pageN pg,
      e.page_number = pageN ∧ e.element_type = "table" ∧ e.document_name = dn ∧
      ∀ fts, pg.foundTables = .ok fts → e.bbox ∈ fts := by
  intro e he
  rw [extractTables] at he
  rcases hf : pg.foundTables with ef | fts
  · rw [hf] at he; simp at he
  · rcases hx : pg.extractedTables with ex | ets
    · rw [hf, hx] at he; simp at he
    · rw [hf, hx] at he
      simp only [] at he
      by_cases hemp : (ets.isEmpty || fts.isEmpty) = true
      · rw [if_pos hemp] at he; simp at he
      · rw [if_neg hemp] at he
        obtain ⟨j, t, bb, hj, hne, heq⟩ := tablesGo_mem (ets.zip fts) 0 e he
        subst heq
        refine ⟨rfl, rfl, rfl, fun fts' hf' => ?_⟩
        injection hf' with hf'
        subst hf'
        have hmem : (t, bb) ∈ ets.zip fts := List.get?_mem hj
        exact (List.of_mem_zip hmem).2

theorem foot_facts {dn text : String} {n : Nat} {pg : Page} {es : List Element}
    (h : extractFootnotes dn text n pg = .ok es) :
    ∀ e ∈ es, e.page_number = n ∧ e.element_type = "footnote" ∧
      e.section_name = "Footnotes" ∧ e.document_name = dn := by
  intro e he
  rw [extractFootnotes] at h
  rcases hw : pg.words with we | ws
  · rw [hw] at h; exact absurd h (by simp)
  · rw [hw] at h
    simp only [] at h
    by_cases hemp : (collectFoot ws (footMatches text)).2.isEmpty = true
    · rw [if_pos hemp] at h
      injection h with h
      subst h
      simp at he
    · rw [if_neg hemp] at h
      injection h with h
      subst h
      rcases List.mem_singleton.mp he with rfl
      exact ⟨rfl, rfl, rfl, rfl⟩

theorem foot_len {dn text : String} {n : Nat} {pg : Page} {es : List Element}
    (h : extractFootnotes dn text n pg = .ok es) : es.length ≤ 1 := by
  rw [extractFootnotes] at h
  rcases hw : pg.words with we | ws
  · rw [hw] at h; exact absurd h (by simp)
  · rw [hw] at h
    simp only [] at h
    by_cases hemp : (collectFoot ws (footMatches text)).2.isEmpty = true
    · rw [if_pos hemp] at h
      injection h with h
      subst h
      exact Nat.zero_le 1
    · rw [if_neg hemp] at h
      injection h with h
      subst h
      exact Nat.le_refl 1

theorem collectFoot_texts (ws : List Word) :
    ∀ ms : List (List Char),
      (collectFoot ws ms).1 =
        (ms.map pyStripL).filter fun ft => !(wordsIn ws ft).isEmpty := by
  intro ms
  induction ms with
  | nil => rfl
  | cons m ms ih =>
    by_cases hemp : (wordsIn ws (pyStripL m)).isEmpty = true
    · simp [collectFoot, hemp, ih]
    · have hemp' : (wordsIn ws (pyStripL m)).isEmpty = false := by
        simpa using hemp
      simp [collectFoot, hemp', ih]

theorem collectFoot_words (ws : List Word) :
    ∀ (ms : List (List Char)) (w : Word), w ∈ (collectFoot ws ms).2 →
      ∃ m ∈ ms, w ∈ wordsIn ws (pyStripL m) := by
  intro ms
  induction ms with
  | nil => intro w h; simp [collectFoot] at h
  | cons m ms ih =>
    intro w h
    rw [collectFoot] at h
    by_cases hemp : (wordsIn ws (pyStripL m)).isEmpty = true
    · rw [if_pos hemp] at h
      obtain ⟨m', hm', hw'⟩ := ih w h
      exact ⟨m', List.mem_cons_of_mem m hm', hw'⟩
    · rw [if_neg hemp] at h
      rcases List.mem_append.mp h with h' | h'
      · exact ⟨m, List.mem_cons_self m ms, h'⟩
      · obtain ⟨m', hm', hw'⟩ := ih w h'
        exact ⟨m', List.mem_cons_of_mem m hm', hw'⟩

theorem parsePages_cons_inv {dn : String} {n : Nat} {pg : Page} {rest : List Page}
    {es : List Element} (h : parsePages dn n (pg :: rest) = .ok es) :
    ∃ t paras fns more, pg.text = .ok t ∧
      extractParagraphs dn (t.getD "") n pg = .ok paras ∧
      extractFootnotes dn (t.getD "") n pg = .ok fns ∧
      parsePages dn (n + 1) rest = .ok more ∧
      es = paras ++ extractTables dn n pg ++ fns ++ more := by
  rw [parsePages] at h
  rcases ht : pg.text with te | t
  · rw [ht] at h; simp at h
  · rw [ht] at h
    simp only [] at h
    rcases hp : extractParagraphs dn (t.getD "") n pg with pe | paras
    · rw [hp] at h; simp at h
    · rw [hp] at h
      simp only [] at h
      rcases hfn : extractFootnotes dn (t.getD "") n pg with fe | fns
      · rw [hfn] at h; simp at h
      · rw [hfn] at h
        simp only [] at h
        rcases hm : parsePages dn (n + 1) rest with me | more
        · rw [hm] at h; simp at h
        · rw [hm] at h
          simp only [] at h
          injection h with h
          exact ⟨t, paras, fns, more, rfl, hp, hfn, rfl, h.symm⟩

theorem parsePages_cons_eq {dn : String} {n : Nat} {pg : Page} {rest : List Page}
    {t : Option String} {paras fns more : List Element}
    (ht : pg.text = .ok t)
    (hp : extractParagraphs dn (t.getD "") n pg = .ok paras)
    (hfn : extractFootnotes dn (t.getD "") n pg = .ok fns)
    (hm : parsePages dn (n + 1) rest = .ok more) :
    parsePages dn n (pg :: rest) =
      .ok (paras ++ extractTables dn n pg ++ fns ++ more) := by
  simp only [parsePages, ht, hp, hfn, hm]

theorem parsePages_facts {dn : String} :
    ∀ (pgs : List Page) (n : Nat) (es : List Element),
      parsePages dn n pgs = .ok es →
      ∀ e ∈ es, n ≤ e.page_number ∧ e.page_number < n + pgs.length ∧
        (e.element_type = "paragraph" ∨ e.element_type = "table" ∨
          e.element_type = "footnote") := by
  intro pgs
  induction pgs with
  | nil =>
    intro n es h e he
    rw [parsePages] at h
    injection h with h
    subst h
    simp at he
  | cons pg rest ih =>
    intro n es h e he
    obtain ⟨t, paras, fns, more, ht, hp, hfn, hm, hes⟩ := parsePages_cons_inv h
    subst hes
    rw [extractParagraphs] at hp
    rcases List.mem_append.mp he with h1 | h23
    · rcases List.mem_append.mp h1 with h1' | h2'
      · rcases List.mem_append.mp h1' with hpa | htb
        · obtain ⟨hpn, hty, _⟩ := parasGo_facts hp e hpa
          exact ⟨by omega, by simp [hpn, List.length_cons], Or.inl hty⟩
        · obtain ⟨hpn, hty, _, _⟩ := extractTables_facts e htb
          exact ⟨by omega, by simp [hpn, List.length_cons], Or.inr (Or.inl hty)⟩
      · obtain ⟨hpn, hty, _, _⟩ := foot_facts hfn e h2'
        exact ⟨by omega, by simp [hpn, List.length_cons], Or.inr (Or.inr hty)⟩
    · obtain ⟨h1, h2, h3⟩ := ih (n + 1) more hm e h23
      exact ⟨by omega, by simp [List.length_cons]; omega, h3⟩

theorem parsePages_spec (dn : String) :
    ∀ (pgs : List Page) (n : Nat),
      parsePages dn n pgs = specJoin dn (pgs.enumFrom n) := by
  intro pgs
  induction pgs with
  | nil => intro n; rfl
  | cons pg rest ih =>
    intro n
    have he : (pg :: rest).enumFrom n = (n, pg) :: rest.enumFrom (n + 1) := rfl
    rw [he]
    rcases ht : pg.text with te | t
    · simp [parsePages, specJoin, pageElements, ht]
    · rcases hp : extractParagraphs dn (t.getD "") n pg with pe | paras
      · simp [parsePages, specJoin, pageElements, ht, hp]
      · rcases hfn : extractFootnotes dn (t.getD "") n pg with fe | fns
        · simp [parsePages, specJoin, pageElements, ht, hp, hfn]
        · rcases hm : parsePages dn (n + 1) rest with me | more
          · simp [parsePages, specJoin, pageElements, ht, hp, hfn, ← ih, hm]
          · simp [parsePages, specJoin, pageElements, ht, hp, hfn, ← ih, hm,
              List.append_assoc]

theorem rank_para {e : Element} (h : e.element_type = "paragraph") : typeRank e = 0 := by
  simp [typeRank, h]

theorem rank_table {e : Element} (h : e.element_type = "table") : typeRank e = 1 := by
  simp [typeRank, h]

theorem rank_foot {e : Element} (h : e.element_type = "footnote") : typeRank e = 2 := by
  simp [typeRank, h]

theorem parsePages_order {dn : String} :
    ∀ (pgs : List Page) (n : Nat) (es : List Element),
      parsePages dn n pgs = .ok es → es.Pairwise elemLE := by
  intro pgs
  induction pgs with
  | nil =>
    intro n es h
    rw [parsePages] at h
    injection h with h
    subst h
    exact List.Pairwise.nil
  | cons pg rest ih =>
    intro n es h
    obtain ⟨t, paras, fns, more, ht, hp, hfn, hm, hes⟩ := parsePages_cons_inv h
    subst hes
    rw [extractParagraphs] at hp
    have hpa : ∀ e ∈ paras, e.page_number = n ∧ typeRank e = 0 := fun e he =>
      ⟨(parasGo_facts hp e he).1, rank_para (parasGo_facts hp e he).2.1⟩
    have htb : ∀ e ∈ extractTables dn n pg, e.page_number = n ∧ typeRank e = 1 :=
      fun e he => ⟨(extractTables_facts e he).1, rank_table (extractTables_facts e he).2.1⟩
    have hfo : ∀ e ∈ fns, e.page_number = n ∧ typeRank e = 2 := fun e he =>
      ⟨(foot_facts hfn e he).1, rank_foot (foot_facts hfn e he).2.1⟩
    have hmo : ∀ e ∈ more, n + 1 ≤ e.page_number := fun e he =>
      (parsePages_facts rest (n + 1) more hm e he).1
    have same : ∀ (l : List Element) (k : Nat),
        (∀ e ∈ l, e.page_number = n ∧ typeRank e = k) → l.Pairwise elemLE := by
      intro l k hl
      refine List.pairwise_of_forall_mem_list fun a ha b hb => Or.inr ?_
      rw [(hl a ha).1, (hl b hb).1, (hl a ha).2, (hl b hb).2]
      exact ⟨rfl, Nat.le_refl k⟩
    have cross : ∀ (a b : Element), a.page_number = n → n + 1 ≤ b.page_number →
        elemLE a b := fun a b hhd htl => Or.inl (by omega)
    have crossR : ∀ (a b : Element) (ka kb : Nat), a.page_number = n →
        b.page_number = n → typeRank a = ka → typeRank b = kb → ka ≤ kb →
        elemLE a b := fun a b ka kb h1 h2 h3 h4 h5 =>
      Or.inr ⟨by rw [h1, h2], by rw [h3, h4]; exact h5⟩
    have hleft : ∀ a ∈ paras ++ extractTables dn n pg ++ fns, a.page_number = n := by
      intro a ha
      rcases List.mem_append.mp ha with ha' | ha'
      · rcases List.mem_append.mp ha' with h'' | h''
        · exact (hpa a h'').1
        · exact (htb a h'').1
      · exact (hfo a ha').1
    refine List.pairwise_append.mpr ⟨?_, ih (n + 1) more hm, ?_⟩
    · refine List.pairwise_append.mpr ⟨?_, same fns 2 hfo, ?_⟩
      · refine List.pairwise_append.mpr ⟨same paras 0 hpa, same _ 1 htb, ?_⟩
        intro a ha b hb
        exact crossR a b 0 1 (hpa a ha).1 (htb b hb).1 (hpa a ha).2 (htb b hb).2
          (by omega)
      · intro a ha b hb
        rcases List.mem_append.mp ha with ha' | ha'
        · exact crossR a b 0 2 (hpa a ha').1 (hfo b hb).1 (hpa a ha').2 (hfo b hb).2
            (by omega)
        · exact crossR a b 1 2 (htb a ha').1 (hfo b hb).1 (htb a ha').2 (hfo b hb).2
            (by omega)
    · intro a ha b hb
      exact cross a b (hleft a ha) (hmo b hb)

theorem extractTables_err {dn : String} {n : Nat} {pg : Page}
    (h : (∃ e, pg.foundTables = .error e) ∨ ∃ e, pg.extractedTables = .error e) :
    extractTables dn n pg = [] := by
  rcases h with ⟨e, he⟩ | ⟨e, he⟩
  · rw [extractTables, he]
  · rw [extractTables, he]
    rcases hx : pg.foundTables with ex | fts <;> rfl

theorem extractFootnotes_ok {dn text : String} {n : Nat} {pg : Page} {ws : List Word}
    (hw : pg.words = .ok ws) :
    ∃ fns, extractFootnotes dn text n pg = .ok fns := by
  rw [extractFootnotes, hw]
  simp only []
  by_cases hc : (collectFoot ws (footMatches text)).2.isEmpty = true
  · exact ⟨[], by rw [if_pos hc]⟩
  · exact ⟨_, by rw [if_neg hc]⟩

theorem parsePages_ok {dn : String} :
    ∀ (pgs : List Page) (n : Nat),
      (∀ pg ∈ pgs, (∃ t, pg.text = .ok t) ∧ ∃ ws, pg.words = .ok ws) →
      ∃ es, parsePages dn n pgs = .ok es := by
  intro pgs
  induction pgs with
  | nil => intro n _; exact ⟨[], rfl⟩
  | cons pg rest ih =>
    intro n hall
    obtain ⟨⟨t, ht⟩, ⟨ws, hw⟩⟩ := hall pg (List.mem_cons_self pg rest)
    obtain ⟨more, hm⟩ := ih (n + 1) fun q hq => hall q (List.mem_cons_of_mem pg hq)
    obtain ⟨fns, hfn⟩ := @extractFootnotes_ok dn (t.getD "") n pg ws hw
    have hp : extractParagraphs dn (t.getD "") n pg =
        .ok ((sectionPairs "Introduction" (rawParagraphs (t.getD ""))).filterMap
          (emitOf dn n ws)) := by
      rw [extractParagraphs]
      exact parasGo_eq hw _ _
    exact ⟨_, parsePages_cons_eq ht hp hfn hm⟩

theorem parse_eq {p0 : PDFParser} {doc : Doc} {es : List Element}
    (h : parsePages p0.document_name 1 doc.pages = .ok es) :
    p0.parse doc = .ok ({ p0 with elements := p0.elements ++ es },
      p0.elements ++ es) := by
  rw [PDFParser.parse, h]

theorem parse_inv {p0 : PDFParser} {doc : Doc} {res : PDFParser × List Element}
    (h : p0.parse doc = .ok res) :
    ∃ es, parsePages p0.document_name 1 doc.pages = .ok es ∧
      res = ({ p0 with elements := p0.elements ++ es }, p0.elements ++ es) := by
  rw [PDFParser.parse] at h
  rcases hpp : parsePages p0.document_name 1 doc.pages with e | es
  · rw [hpp] at h; simp at h
  · rw [hpp] at h
    simp only [] at h
    injection h with h
    exact ⟨es, rfl, h.symm⟩

/-! ## Additional concrete fixtures for witnesses -/

/-- The word list of `pageA`. -/
def wordsA : List Word := [⟨"Hello", 0, 0, 10, 2⟩, ⟨"world", 12, 0, 20, 2⟩]

/-- The table element `parse` extracts from `docT`. -/
def elemT : Element :=
  { document_name := "t.pdf"
    section_name := "Table 1"
    element_type := "table"
    content := "foo"
    metadata := Metadata.table 1 1 0
    page_number := 1
    bbox := ⟨5, 5, 9, 9⟩ }

/-- A page whose table-detection call raises (and nothing else does). -/
def pageTE : Page :=
  { text := .ok none
    words := .ok []
    foundTables := .error "tblboom"
    extractedTables := .ok [] }

/-- One-page document over `pageTE`. -/
def docTE : Doc := { pages := [pageTE] }

/-- The text of `pageF`. -/
def textF : String := "[1] See appendix A\n(2] See appendix B"

/-- The word list of `pageF`. -/
def wordsF : List Word :=
  [⟨"[1]", 0, 0, 10, 10⟩, ⟨"See", 12, 0, 20, 10⟩, ⟨"(2]", 0, 12, 10, 22⟩,
   ⟨"B", 40, 12, 44, 22⟩]

/-- The single merged footnote element of `pageF`. -/
def elemF : Element :=
  { document_name := "f.pdf"
    section_name := "Footnotes"
    element_type := "footnote"
    content := "[1] See appendix A\n(2] See appendix B"
    metadata := Metadata.footnote 2
    page_number := 1
    bbox := ⟨0, 0, 44, 22⟩ }

/-- The word list of `pageH`. -/
def wordsH : List Word := [⟨"para", 0, 0, 4, 1⟩, ⟨"one", 5, 0, 8, 1⟩]

/-- A page opening with an all-caps heading block. -/
def pageH : Page :=
  { text := .ok (some "TITLE\n\npara one")
    words := .ok wordsH
    foundTables := .ok []
    extractedTables := .ok [] }

/-- The raw table of claim C8's example row. -/
def tC8 : RawTable := ⟨[[none, some " foo  bar ", some ""]]⟩

/-! ## Claim theorems -/

/-- C2 (counterexample): the claim says any exception inside one of the
three per-page sub-extractions is caught so that `parse` continues.  On
`docB` the first page's `extract_words` call raises inside paragraph
extraction, and `parse` aborts with that exception — the second (good)
page, which would produce a paragraph element, is never reached and no
element list is returned at all. -/
theorem C2_counterexample : (mkParser "b.pdf").parse docB = .error "boom" := rfl

/-- C2 (amended): only table extraction is fault-isolated.  An exception
in `find_tables`/`extract_tables` is caught and yields zero table elements
for that page, and `parse` succeeds whenever every page's `extract_text`
and `extract_words` calls succeed, whatever the table calls do; exceptions
inside paragraph or footnote extraction propagate and abort the run. -/
theorem C2_amended :
    (∀ (dn : String) (n : Nat) (pg : Page),
      ((∃ e, pg.foundTables = .error e) ∨ ∃ e, pg.extractedTables = .error e) →
      extractTables dn n pg = []) ∧
    ∀ (doc : Doc) (p : PDFParser),
      (∀ pg ∈ doc.pages, (∃ t, pg.text = .ok t) ∧ ∃ ws, pg.words = .ok ws) →
      ∃ res, p.parse doc = .ok res := by
  constructor
  · intro dn n pg h
    exact extractTables_err h
  · intro doc p hall
    obtain ⟨es, hes⟩ := @parsePages_ok p.document_name doc.pages 1 hall
    exact ⟨_, parse_eq hes⟩

/-- Witness for `C2_amended` on `pageTE`/`docTE`: a failing table detector
yields no table elements, yet `parse` still succeeds on the document. -/
theorem C2_witness :
    extractTables "x.pdf" 1 pageTE = [] ∧
    ∃ res, (mkParser "x.pdf").parse docTE = .ok res :=
  ⟨C2_amended.1 "x.pdf" 1 pageTE (Or.inl ⟨"tblboom", rfl⟩),
   C2_amended.2 docTE (mkParser "x.pdf") (fun pg hpg => by
     rw [List.mem_singleton.mp hpg]
     exact ⟨⟨none, rfl⟩, ⟨[], rfl⟩⟩)⟩

/-- C3 (counterexample): `parse` is not idempotent on a parser object:
`self.elements` is never reset, so a second `parse()` call on the same
`PDFParser` returns the elements twice, not the same list. -/
theorem C3_counterexample :
    ((mkParser "a.pdf").parse docA).toOption.map (fun r => r.2) = some [elemA] ∧
    (((mkParser "a.pdf").parse docA).bind fun r => r.1.parse docA).toOption.map
      (fun r => r.2) = some [elemA, elemA] ∧
    ([elemA, elemA] : List Element) ≠ [elemA] := by
  refine ⟨by decide, by decide, by decide⟩

/-- C3 (amended): extraction itself is a pure function of the document (in
this embedding `parse` is deterministic by construction), but the parser
object accumulates: on a fresh parser the first `parse` returns the run's
elements, and a second `parse` of the same document on the same object
returns that list concatenated with itself. -/
theorem C3_amended :
    ∀ (doc : Doc) (p0 p1 : PDFParser) (out1 : List Element),
      p0.elements = [] → p0.parse doc = .ok (p1, out1) →
      ∃ p2, p1.parse doc = .ok (p2, out1 ++ out1) := by
  intro doc p0 p1 out1 h0 h
  obtain ⟨es, hes, hres⟩ := parse_inv h
  rw [h0, List.nil_append] at hres
  injection hres with h1 h2
  subst h1
  subst h2
  have hes' : parsePages ({ p0 with elements := out1 } : PDFParser).document_name 1
      doc.pages = .ok out1 := hes
  exact ⟨_, parse_eq hes'⟩

/-- Witness for `C3_amended` on `docA`. -/
theorem C3_witness :
    ∃ p2, (⟨"a.pdf", "a.pdf", [elemA]⟩ : PDFParser).parse docA =
      .ok (p2, [elemA] ++ [elemA]) :=
  C3_amended docA (mkParser "a.pdf") ⟨"a.pdf", "a.pdf", [elemA]⟩ [elemA] rfl rfl

/-- C4: every element returned by a successful `parse` run on a fresh
parser has a 1-based page number at most the document's `total_pages`, and
its type is paragraph, table or footnote. -/
theorem C4_elements :
    ∀ (doc : Doc) (p : PDFParser) (res : PDFParser × List Element),
      p.elements = [] → p.parse doc = .ok res →
      ∀ e ∈ res.2,
        (1 ≤ e.page_number ∧ e.page_number ≤ (extractMetadata doc).total_pages) ∧
        (e.element_type = "paragraph" ∨ e.element_type = "table" ∨
          e.element_type = "footnote") := by
  intro doc p res h0 h e he
  obtain ⟨es, hes, hres⟩ := parse_inv h
  subst hres
  simp only [h0, List.nil_append] at he
  obtain ⟨hge, hlt, hty⟩ := parsePages_facts doc.pages 1 es hes e he
  have htot : (extractMetadata doc).total_pages = doc.pages.length := rfl
  exact ⟨⟨hge, by omega⟩, hty⟩

/-- Witness for `C4_elements` on `docA`. -/
theorem C4_witness :
    (1 ≤ elemA.page_number ∧
      elemA.page_number ≤ (extractMetadata docA).total_pages) ∧
    (elemA.element_type = "paragraph" ∨ elemA.element_type = "table" ∨
      elemA.element_type = "footnote") :=
  C4_elements docA (mkParser "a.pdf") (⟨"a.pdf", "a.pdf", [elemA]⟩, [elemA]) rfl rfl
    elemA (List.mem_singleton.mpr rfl)

/-- C5: the page loop of `parse` is exactly the page-ordered join of the
per-page outputs (paragraphs, then tables, then footnotes), and
consequently the returned list is sorted by page number and, within a
page, by the order paragraph < table < footnote. -/
theorem C5_order :
    (∀ (dn : String) (pgs : List Page) (n : Nat),
      parsePages dn n pgs = specJoin dn (pgs.enumFrom n)) ∧
    ∀ (doc : Doc) (p : PDFParser) (res : PDFParser × List Element),
      p.elements = [] → p.parse doc = .ok res → res.2.Pairwise elemLE := by
  constructor
  · intro dn pgs n
    exact parsePages_spec dn pgs n
  · intro doc p res h0 h
    obtain ⟨es, hes, hres⟩ := parse_inv h
    subst hres
    simp only [h0, List.nil_append]
    exact parsePages_order doc.pages 1 es hes

/-- Witness for `C5_order` on `docA`. -/
theorem C5_witness : List.Pairwise elemLE [elemA] :=
  C5_order.2 docA (mkParser "a.pdf") (⟨"a.pdf", "a.pdf", [elemA]⟩, [elemA]) rfl rfl

theorem paras_bbox {dn : String} {n : Nat} {pg : Page} {ws : List Word}
    (hw : pg.words = .ok ws) :
    ∀ (bs : List String) (sec : String) (es : List Element),
      extractParasGo dn n pg sec bs = .ok es →
      ∀ e ∈ es, wordsIn ws e.content.toList ≠ [] ∧
        e.bbox = bboxOfWords (wordsIn ws e.content.toList) := by
  intro bs sec es h e he
  rw [parasGo_eq hw bs sec] at h
  injection h with h
  subst h
  obtain ⟨p, hp, hemit⟩ := List.mem_filterMap.mp he
  by_cases hpw : wordsIn ws p.2.data = []
  · simp [emitOf, hpw] at hemit
  · simp [emitOf, hpw] at hemit
    rw [← hemit]
    exact ⟨hpw, rfl⟩

theorem foot_bbox {dn text : String} {n : Nat} {pg : Page} {ws : List Word}
    {es : List Element} (hw : pg.words = .ok ws)
    (h : extractFootnotes dn text n pg = .ok es) :
    ∀ e ∈ es, (collectFoot ws (footMatches text)).2 ≠ [] ∧
      e.bbox = bboxOfWords (collectFoot ws (footMatches text)).2 := by
  intro e he
  rw [extractFootnotes, hw] at h
  simp only [] at h
  by_cases hc : (collectFoot ws (footMatches text)).2.isEmpty = true
  · rw [if_pos hc] at h
    injection h with h
    subst h
    simp at he
  · rw [if_neg hc] at h
    injection h with h
    subst h
    rcases List.mem_singleton.mp he with rfl
    exact ⟨by simpa using hc, rfl⟩

/-- C1 (counterexample): the claim says every Element emitted by `parse`
carries the min/max box of its matching word tokens and that a candidate
with no matching words is never emitted.  On `docT` the page has no word
tokens at all, yet `parse` emits a table element whose box is the
detector-reported rectangle. -/
theorem C1_counterexample :
    ((mkParser "t.pdf").parse docT).toOption.map (fun r => r.2) = some [elemT] ∧
    elemT.element_type = "table" ∧
    pageT.words = .ok [] ∧
    wordsIn [] elemT.content.toList = [] :=
  ⟨by decide, rfl, rfl, rfl⟩

/-- C1 (amended): paragraph and footnote elements do carry the minimal
box over their matched word tokens and are only emitted when at least one
word matched (the pooled footnote words all come from some footnote
match); table elements instead carry the detector's reported box and are
emitted regardless of word matching. -/
theorem C1_amended :
    (∀ (dn text : String) (n : Nat) (pg : Page) (ws : List Word)
      (es : List Element), pg.words = .ok ws →
      extractParagraphs dn text n pg = .ok es →
      ∀ e ∈ es, wordsIn ws e.content.toList ≠ [] ∧
        e.bbox = bboxOfWords (wordsIn ws e.content.toList)) ∧
    (∀ (dn text : String) (n : Nat) (pg : Page) (ws : List Word)
      (es : List Element), pg.words = .ok ws →
      extractFootnotes dn text n pg = .ok es →
      ∀ e ∈ es, (collectFoot ws (footMatches text)).2 ≠ [] ∧
        e.bbox = bboxOfWords (collectFoot ws (footMatches text)).2 ∧
        ∀ w ∈ (collectFoot ws (footMatches text)).2,
          ∃ m ∈ footMatches text, w ∈ wordsIn ws (pyStripL m)) ∧
    ∀ (dn : String) (n : Nat) (pg : Page) (fts : List BoundingBox),
      pg.foundTables = .ok fts → ∀ e ∈ extractTables dn n pg, e.bbox ∈ fts := by
  refine ⟨?_, ?_, ?_⟩
  · intro dn text n pg ws es hw h e he
    rw [extractParagraphs] at h
    exact paras_bbox hw _ _ _ h e he
  · intro dn text n pg ws es hw h e he
    exact ⟨(foot_bbox hw h e he).1, (foot_bbox hw h e he).2,
      fun w hwm => collectFoot_words ws (footMatches text) w hwm⟩
  · intro dn n pg fts hf e he
    exact (extractTables_facts e he).2.2.2 fts hf

/-- Witness for `C1_amended`: the paragraph of `pageA`, the footnote of
`pageF` and the table of `pageT`. -/
theorem C1_witness :
    (wordsIn wordsA elemA.content.toList ≠ [] ∧
      elemA.bbox = bboxOfWords (wordsIn wordsA elemA.content.toList)) ∧
    ((collectFoot wordsF (footMatches textF)).2 ≠ [] ∧
      elemF.bbox = bboxOfWords (collectFoot wordsF (footMatches textF)).2 ∧
      ∀ w ∈ (collectFoot wordsF (footMatches textF)).2,
        ∃ m ∈ footMatches textF, w ∈ wordsIn wordsF (pyStripL m)) ∧
    elemT.bbox ∈ [(⟨5, 5, 9, 9⟩ : BoundingBox)] :=
  ⟨C1_amended.1 "a.pdf" "Hello world" 1 pageA wordsA [elemA] rfl rfl elemA
    (List.mem_singleton.mpr rfl),
   C1_amended.2.1 "f.pdf" textF 1 pageF wordsF [elemF] rfl rfl elemF
    (List.mem_singleton.mpr rfl),
   C1_amended.2.2 "t.pdf" 1 pageT [⟨5, 5, 9, 9⟩] rfl elemT (by decide)⟩

/-- C6 (counterexample): the claim reads `is_title` as true for any text
made entirely of uppercase letters and whitespace, but the regex
`^[A-Z][A-Z\s]+$` needs at least two characters: `"A"` is entirely
uppercase yet `is_title("A")` is false. -/
theorem C6_counterexample :
    claimUpperWS (pyStripL "A".toList) ∧ isTitle "A" = false :=
  ⟨by unfold claimUpperWS; decide, by decide⟩

/-- C6 (amended): `is_title` classifies the stripped text as a heading
exactly when it is (a) an uppercase letter followed by one or more
uppercase letters or whitespace characters, or (b) digits, a period, one
or more whitespace characters and an uppercase letter (as a prefix), or
(c) title-case words (an uppercase letter plus one or more lowercase
letters) separated by single whitespace characters; the four quoted
examples behave as claimed. -/
theorem C6_amended :
    (∀ s : String, isTitle s = true ↔
      (specAllCaps (pyStripL s.toList) ∨ specNumbered (pyStripL s.toList) ∨
        TitleStr (pyStripL s.toList))) ∧
    isTitle "INTRODUCTION" = true ∧
    isTitle "1. Overview" = true ∧
    isTitle "The Quick Brown Fox" = true ∧
    isTitle "the quick brown fox jumps" = false := by
  refine ⟨fun s => ?_, by decide, by decide, by decide, by decide⟩
  simp only [isTitle, Bool.or_eq_true, matchAllCaps_iff, matchNumbered_iff,
    matchTitle_iff, or_assoc]

/-- C7: all footnote-pattern matches with at least one matching word are
merged into at most one element per page, whose `section_name` is
"Footnotes", whose content is the newline-join of exactly the matched
texts that had a matching word, and whose count metadata is the number of
those texts; the two-pattern example page yields one element with count 2
and both texts newline-joined. -/
theorem C7_footnote_merge :
    (∀ (dn text : String) (n : Nat) (pg : Page) (ws : List Word)
      (es : List Element), pg.words = .ok ws →
      extractFootnotes dn text n pg = .ok es →
      es.length ≤ 1 ∧
      (collectFoot ws (footMatches text)).1 =
        ((footMatches text).map pyStripL).filter
          (fun ft => !(wordsIn ws ft).isEmpty) ∧
      ∀ e ∈ es, e.section_name = "Footnotes" ∧
        e.content =
          String.mk (intercalateL ['\n'] (collectFoot ws (footMatches text)).1) ∧
        e.metadata = Metadata.footnote (collectFoot ws (footMatches text)).1.length) ∧
    (extractFootnotes "f.pdf" textF 1 pageF).toOption.map
        (fun es => es.map fun e => (e.content, e.metadata)) =
      some [("[1] See appendix A\n(2] See appendix B", Metadata.footnote 2)] := by
  constructor
  · intro dn text n pg ws es hw h
    refine ⟨foot_len h, collectFoot_texts ws (footMatches text), ?_⟩
    intro e he
    rw [extractFootnotes, hw] at h
    simp only [] at h
    by_cases hc : (collectFoot ws (footMatches text)).2.isEmpty = true
    · rw [if_pos hc] at h
      injection h with h
      subst h
      simp at he
    · rw [if_neg hc] at h
      injection h with h
      subst h
      rcases List.mem_singleton.mp he with rfl
      exact ⟨rfl, rfl, rfl⟩
  · decide

/-- Witness for `C7_footnote_merge` on `pageF`. -/
theorem C7_witness :
    ([elemF] : List Element).length ≤ 1 ∧ elemF.metadata = Metadata.footnote 2 :=
  ⟨(C7_footnote_merge.1 "f.pdf" textF 1 pageF wordsF [elemF] rfl rfl).1,
   ((C7_footnote_merge.1 "f.pdf" textF 1 pageF wordsF [elemF] rfl rfl).2.2 elemF
     (List.mem_singleton.mpr rfl)).2.2⟩

/-- C8: cell cleaning maps `None` to `""` and otherwise joins the
whitespace-split words with single spaces (stripping first changes
nothing); rows kept in the cleaned table are exactly the cleaned rows with
some non-blank cell; and the example row behaves as claimed. -/
theorem C8_table_cleaning :
    cleanCell none = "" ∧
    (∀ s : String, cleanCell (some s) =
      String.mk (intercalateL [' '] (pyWordsL s.toList))) ∧
    (∀ t : RawTable, ∀ r ∈ cleanedTable t, rowNonEmpty r = true) ∧
    (∀ (t : RawTable) (row : List (Option String)),
      row ∈ t.rows → rowNonEmpty (cleanRow row) = true →
      cleanRow row ∈ cleanedTable t) ∧
    cleanRow [none, some " foo  bar ", some ""] = ["", "foo bar", ""] ∧
    rowNonEmpty ["", "foo bar", ""] = true ∧
    textRowOf ["", "foo bar", ""] = "foo bar" := by
  refine ⟨rfl, fun s => ?_, fun t r hr => ?_, fun t row hrow hne => ?_,
    by decide, by decide, by decide⟩
  · rw [cleanCell, pyWords_strip]
  · exact List.of_mem_filter hr
  · exact List.mem_filter.mpr ⟨List.mem_map_of_mem cleanRow hrow, hne⟩

/-- Witness for `C8_table_cleaning` on `tC8`. -/
theorem C8_witness :
    cleanCell (some " foo  bar ") =
      String.mk (intercalateL [' '] (pyWordsL " foo  bar ".toList)) ∧
    cleanRow [none, some " foo  bar ", some ""] ∈ cleanedTable tC8 :=
  ⟨C8_table_cleaning.2.1 " foo  bar ",
   C8_table_cleaning.2.2.2.1 tC8 [none, some " foo  bar ", some ""]
     (by decide) (by decide)⟩

/-- C9: paragraph extraction starts each page at section "Introduction"
(the state is re-initialised on every call, so it cannot carry across
pages); its output is the filter-map of the (section, block) pairs built
by threading "most recently seen heading" through the blocks; blocks
paired for emission are never headings, so no emitted paragraph's content
is a heading. -/
theorem C9_section_state :
    (∀ (dn text : String) (n : Nat) (pg : Page),
      extractParagraphs dn text n pg =
        extractParasGo dn n pg "Introduction" (rawParagraphs text)) ∧
    (∀ (dn : String) (n : Nat) (pg : Page) (ws : List Word) (bs : List String)
      (sec : String), pg.words = .ok ws →
      extractParasGo dn n pg sec bs =
        .ok ((sectionPairs sec bs).filterMap (emitOf dn n ws))) ∧
    (∀ (bs : List String) (sec : String) (p : String × String),
      p ∈ sectionPairs sec bs → isTitle p.2 = false) ∧
    ∀ (dn text : String) (n : Nat) (pg : Page) (ws : List Word)
      (es : List Element), pg.words = .ok ws →
      extractParagraphs dn text n pg = .ok es →
      ∀ e ∈ es, isTitle e.content = false := by
  refine ⟨fun dn text n pg => rfl,
    fun dn n pg ws bs sec hw => parasGo_eq hw bs sec, sectionPairs_not_title, ?_⟩
  intro dn text n pg ws es hw h e he
  rw [extractParagraphs, parasGo_eq hw _ _] at h
  injection h with h
  subst h
  obtain ⟨p, hp, hemit⟩ := List.mem_filterMap.mp he
  by_cases hpw : wordsIn ws p.2.data = []
  · simp [emitOf, hpw] at hemit
  · simp [emitOf, hpw] at hemit
    rw [← hemit]
    exact sectionPairs_not_title _ _ p hp

/-- Witness for `C9_section_state` on `pageH` (heading block "TITLE"
updates the section; the remaining block pairs with it). -/
theorem C9_witness :
    extractParasGo "h.pdf" 1 pageH "Introduction"
        (rawParagraphs "TITLE\n\npara one") =
      .ok ((sectionPairs "Introduction"
        (rawParagraphs "TITLE\n\npara one")).filterMap (emitOf "h.pdf" 1 wordsH)) ∧
    isTitle (("TITLE", "para one") : String × String).2 = false :=
  ⟨C9_section_state.2.1 "h.pdf" 1 pageH wordsH
    (rawParagraphs "TITLE\n\npara one") "Introduction" rfl,
   C9_section_state.2.2.1 (rawParagraphs "TITLE\n\npara one") "Introduction"
    ("TITLE", "para one") (by decide)⟩

/-- C10: every emitted table element is `mkTable` at its zero-based
position `j` among all detector-reported tables of the page (dropped
all-empty tables still advance the index), so `section_name` is
"Table {j+1}" and the columns metadata is the length of the first retained
row; `pageC` emits "Table 2" with no "Table 1". -/
theorem C10_table_labels :
    (∀ (dn : String) (n : Nat) (pg : Page) (fts : List BoundingBox)
      (ets : List RawTable), pg.foundTables = .ok fts →
      pg.extractedTables = .ok ets →
      ∀ e ∈ extractTables dn n pg, ∃ j t bb,
        (ets.zip fts).get? j = some (t, bb) ∧
        (cleanedTable t).isEmpty = false ∧ e = mkTable dn n j t bb) ∧
    (∀ (dn : String) (n i : Nat) (t : RawTable) (bb : BoundingBox),
      (mkTable dn n i t bb).section_name = "Table " ++ toString (i + 1) ∧
      (mkTable dn n i t bb).metadata =
        Metadata.table (cleanedTable t).length ((cleanedTable t).headD []).length i) ∧
    extractTables "c.pdf" 1 pageC =
      [mkTable "c.pdf" 1 1 ⟨[[some "a", some "b"]]⟩ ⟨2, 2, 3, 3⟩] ∧
    (mkTable "c.pdf" 1 1 ⟨[[some "a", some "b"]]⟩ ⟨2, 2, 3, 3⟩).section_name =
      "Table 2" ∧
    (mkTable "c.pdf" 1 1 ⟨[[some "a", some "b"]]⟩ ⟨2, 2, 3, 3⟩).metadata =
      Metadata.table 1 2 1 := by
  refine ⟨?_, fun dn n i t bb => ⟨rfl, rfl⟩, by decide, by decide, by decide⟩
  intro dn n pg fts ets hf hx e he
  rw [extractTables, hf, hx] at he
  simp only [] at he
  by_cases hemp : (ets.isEmpty || fts.isEmpty) = true
  · rw [if_pos hemp] at he
    simp at he
  · rw [if_neg hemp] at he
    obtain ⟨j, t, bb, hj, hne, heq⟩ := tablesGo_mem (ets.zip fts) 0 e he
    exact ⟨j, t, bb, hj, hne, by simpa using heq⟩

/-- Witness for `C10_table_labels` on `pageC`. -/
theorem C10_witness :
    ∃ j t bb,
      (([⟨[[some " "], [none]]⟩, ⟨[[some "a", some "b"]]⟩] : List RawTable).zip
        [(⟨0, 0, 1, 1⟩ : BoundingBox), ⟨2, 2, 3, 3⟩]).get? j = some (t, bb) ∧
      (cleanedTable t).isEmpty = false ∧
      mkTable "c.pdf" 1 1 ⟨[[some "a", some "b"]]⟩ ⟨2, 2, 3, 3⟩ =
        mkTable "c.pdf" 1 j t bb :=
  C10_table_labels.1 "c.pdf" 1 pageC [⟨0, 0, 1, 1⟩, ⟨2, 2, 3, 3⟩]
    [⟨[[some " "], [none]]⟩, ⟨[[some "a", some "b"]]⟩] rfl rfl
    (mkTable "c.pdf" 1 1 ⟨[[some "a", some "b"]]⟩ ⟨2, 2, 3, 3⟩) (by decide)
